import Mathlib

/-!
Verification of the Markov-switching autoregression core
(`statsmodels/tsa/regime_switching/markov_autoregression.py`).

The development shallowly embeds the numeric core of the module over the
real numbers:

* `MarkovAR.residTensor` embeds `MarkovAutoregression._resid`, building the
  regime-history residual tensor by the same sequence of slice updates the
  source performs (base assignment `resid[:] = self.endog`, then one
  subtraction per `(i, j, k)` loop iteration).
* `MarkovAR.condLikEntry` / `MarkovAR.condLikSwitchEntry` embed
  `_conditional_likelihoods`, including the exact numpy broadcasting of the
  `(k_regimes, 1, 1)`-reshaped switching-variance vector against the
  `order + 2`-dimensional residual array.
* `MarkovAR.emCoeffs` / `MarkovAR.emVariancePooled` / `MarkovAR.emVarSwitch`
  embed `_em_autoregressive`; the Moore-Penrose solve
  `np.dot(np.linalg.pinv(X), y)` of the external linear-algebra library is
  taken as an explicit function argument `lstsq`.
* `MarkovAR.emIteration` embeds `_em_iteration`, including the literal
  `if True or self._k_exog > 0` branch of the source.
* `MarkovAR.spArCoeff` / `MarkovAR.spExogCoeff` / `MarkovAR.spVariance`
  embed the `start_params` property.
* `MarkovAR.initChecks` embeds the `ValueError` checks of `__init__`.
* `StatTransform.constrain_stationary_univariate` and its inverse model the
  stationarity reparameterization; that code lives in
  `statsmodels/tsa/statespace/tools.py`, which is outside the provided
  sources, so it is modelled from the specification text.
-/

noncomputable section

namespace MarkovAR

/-- Model and parameter data consumed by `_resid`: regime count `k`,
autoregressive order, untrimmed sample size `nobsOrig`, number of
(trend plus exogenous) regression columns `kExog`, the untrimmed endogenous
series `origEndog`, the untrimmed design matrix `exog` (time, column), the
per-regime regression coefficients `exogCoeffs` (regime, column) and the
per-regime autoregressive coefficients `ar` (regime, zero-based lag). -/
structure ResidModel where
  k : ℕ
  order : ℕ
  nobsOrig : ℕ
  kExog : ℕ
  origEndog : ℕ → ℝ
  exog : ℕ → ℕ → ℝ
  exogCoeffs : ℕ → ℕ → ℝ
  ar : ℕ → ℕ → ℝ

/-- Trimmed sample size: `self.nobs -= self.order` in `__init__`. -/
def ResidModel.T (m : ResidModel) : ℕ := m.nobsOrig - m.order

/-- `xb[i] = np.dot(self.orig_exog, coeffs)` for regime `i`. -/
def xb (m : ResidModel) (i t : ℕ) : ℝ :=
  ∑ c ∈ Finset.range m.kExog, m.exog t c * m.exogCoeffs i c

/-- The residual array of `_resid`, represented as a function of the
current-regime index (axis 0), the historical-regime indices
(`h j` is the index on axis `j`, giving the regime assumed at lag `j`,
for `1 ≤ j ≤ order`) and the time index (last axis). -/
def Tensor : Type := ℕ → (ℕ → ℕ) → ℕ → ℝ

/-- Slice update `resid[i, :, ..., :] -= delta` used for the
`y_t - x_t beta^{(S_t)}` term: fixes axis 0 at `i`, all other axes free. -/
def sliceSubBase (A : Tensor) (i : ℕ) (δ : ℕ → ℝ) : Tensor :=
  fun a h t => if a = i then A a h t - δ t else A a h t

/-- Slice update `resid[ix] -= delta` with `ix[0] = i`, `ix[j] = mreg` and
every other axis free, used for the lag-`j` term. -/
def sliceSubLag (A : Tensor) (i j mreg : ℕ) (δ : ℕ → ℝ) : Tensor :=
  fun a h t => if a = i ∧ h j = mreg then A a h t - δ t else A a h t

/-- The quantity subtracted from the `(S_t = i, S_{t-j} = mreg)` slice at
trimmed time `t`:
`ar_coeffs[j-1] * (self.orig_endog[start:end] - xb[k][start:end])`
with `start = self.order - j`, `end = -j` (so position `t` of the slice is
absolute index `order - j + t`), or without the `xb` term when
`self._k_exog == 0`. -/
def arLagTerm (m : ResidModel) (i j mreg t : ℕ) : ℝ :=
  m.ar i (j - 1) *
    (m.origEndog (m.order - j + t) -
      if 0 < m.kExog then xb m mreg (m.order - j + t) else 0)

/-- One iteration of the outer `for i in range(self.k_regimes)` loop of
`_resid`: first the `y_t - x_t beta^{(S_t)}` slice subtraction (only when
exogenous regressors are present), then the double loop
`for j in range(1, self.order + 1): for k in range(self.k_regimes)`. -/
def regimePass (m : ResidModel) (A : Tensor) (i : ℕ) : Tensor :=
  let A1 := if 0 < m.kExog then
    sliceSubBase A i (fun t => xb m i (m.order + t)) else A
  (List.range m.order).foldl
    (fun B j0 => (List.range m.k).foldl
      (fun C mreg => sliceSubLag C i (j0 + 1) mreg (arLagTerm m i (j0 + 1) mreg)) B)
    A1

/-- `_resid(params)`: start from `resid[:] = self.endog` (the trimmed
series, whose position `t` is `orig_endog[order + t]`), then run the
regime loop. -/
def residTensor (m : ResidModel) : Tensor :=
  (List.range m.k).foldl (regimePass m) (fun _ _ t => m.origEndog (m.order + t))

/-- The shape tuple of the residual array:
`np.zeros((self.k_regimes,) * (self.order + 1) + (self.nobs,))`. -/
def residShape (m : ResidModel) : List ℕ :=
  List.replicate (m.order + 1) m.k ++ [m.T]

/-- The Gaussian density expression of `_conditional_likelihoods`:
`np.exp(-0.5 * resid**2 / variance) / np.sqrt(2 * np.pi * variance)`. -/
def gaussDens (r v : ℝ) : ℝ :=
  Real.exp (-(0.5) * r ^ 2 / v) / Real.sqrt (2 * Real.pi * v)

/-- Entry of `_conditional_likelihoods` when `switching_variance` is false:
the scalar variance divides every entry. -/
def condLikEntry (m : ResidModel) (v : ℝ) (i : ℕ) (h : ℕ → ℕ) (t : ℕ) : ℝ :=
  gaussDens (residTensor m i h t) v

/-- The regime index whose variance entry divides tensor entry `(i, h, t)`
when `switching_variance` is true and `order ≥ 1`.  The source reshapes the
variance vector to shape `(k_regimes, 1, 1)`; numpy broadcasting aligns
that rank-3 array against the rank-`order + 2` residual array from the
trailing axis, so the variance axis lands on residual axis
`(order + 2) - 3 = order - 1`: axis 0 (the current regime `i`) when
`order = 1`, and the historical axis `order - 1` (the regime at lag
`order - 1`) when `order ≥ 2`. -/
def switchVarIndex (order : ℕ) (i : ℕ) (h : ℕ → ℕ) : ℕ :=
  if order = 1 then i else h (order - 1)

/-- Entry of `_conditional_likelihoods` when `switching_variance` is true
and `order ≥ 1` (the shapes broadcast to the shape of the residual array itself). -/
def condLikSwitchEntry (m : ResidModel) (var : ℕ → ℝ) (i : ℕ) (h : ℕ → ℕ)
    (t : ℕ) : ℝ :=
  gaussDens (residTensor m i h t) (var (switchVarIndex m.order i h))

/-- Entry of `_conditional_likelihoods` when `switching_variance` is true
and `order = 0`: the rank-2 residual array (its histories are empty, so its
entry `(b, t)` is `residTensor m b h t` for the vacuous history) broadcasts
against the rank-3 `(k, 1, 1)` variance array to a rank-3 result of shape
`(k, k, T)` whose entry `(a, b, t)` divides residual `(b, t)` by
`variance[a]`. -/
def condLikSwitchEntry0 (m : ResidModel) (var : ℕ → ℝ) (a b t : ℕ) : ℝ :=
  gaussDens (residTensor m b (fun _ => 0) t) (var a)

/-- The shape of the array returned by `_conditional_likelihoods`, fixed by
the same broadcasting: equal to the residual shape except in the
`switching_variance`, `order = 0` case, where broadcasting `(k, T)` against
`(k, 1, 1)` yields `(k, k, T)`. -/
def condLikShape (m : ResidModel) (switchingVariance : Bool) : List ℕ :=
  if switchingVariance ∧ m.order = 0 then [m.k, m.k, m.T] else residShape m

/-- Modelled from the spec: the recommended checked variant of the density
computation (spec section 7(c): non-positive variance "should be treated as
a fatal domain error at the point of detection").  The source itself
performs no such check. -/
def conditional_likelihoods_checked (m : ResidModel) (v : ℝ) :
    Except String (ℕ → (ℕ → ℕ) → ℕ → ℝ) :=
  if v ≤ 0 then Except.error "non-positive variance"
  else Except.ok (fun i h t => condLikEntry m v i h t)

/-- Data consumed by `_em_autoregressive`: regime count, order, trimmed
sample size `T` (`self.nobs`), regression column count, untrimmed series
and design matrix. -/
structure EMModel where
  k : ℕ
  order : ℕ
  T : ℕ
  kExog : ℕ
  origEndog : ℕ → ℝ
  origExog : ℕ → ℕ → ℝ

/-- The regime-adjusted full-sample series of `_em_autoregressive`:
`resid[:] = self.orig_endog; resid[i] -= np.dot(self.orig_exog, betas[i])`
(the subtraction only happens when exogenous regressors are present). -/
def emResid (m : EMModel) (betas : ℕ → ℕ → ℝ) (i t : ℕ) : ℝ :=
  m.origEndog t -
    if 0 < m.kExog then ∑ c ∈ Finset.range m.kExog, m.origExog t c * betas i c
    else 0

/-- `endog = resid[i, self.order:]` in the per-regime loop. -/
def emEndog (m : EMModel) (betas : ℕ → ℕ → ℝ) (i : ℕ) : Fin m.T → ℝ :=
  fun t => emResid m betas i (m.order + t)

/-- `exog = lagmat(resid[i], self.order)[self.order:]`: trimmed row `t`,
column `j` holds `resid[i]` at absolute index `order + t - (j + 1)`. -/
def emExogLag (m : EMModel) (betas : ℕ → ℕ → ℝ) (i : ℕ) :
    Fin m.T → Fin m.order → ℝ :=
  fun t j => emResid m betas i (m.order + t - (j + 1))

/-- `tmp = np.sqrt(result.smoothed_marginal_probabilities)`. -/
def emTmp (probs : ℕ → ℕ → ℝ) (i t : ℕ) : ℝ := Real.sqrt (probs i t)

/-- `tmp_endog = tmp[i] * endog`. -/
def emWEndog (m : EMModel) (betas probs : ℕ → ℕ → ℝ) (i : ℕ) : Fin m.T → ℝ :=
  fun t => emTmp probs i t * emEndog m betas i t

/-- `tmp_exog = tmp[i][:, None] * exog`. -/
def emWExog (m : EMModel) (betas probs : ℕ → ℕ → ℝ) (i : ℕ) :
    Fin m.T → Fin m.order → ℝ :=
  fun t j => emTmp probs i t * emExogLag m betas i t j

/-- The least-squares solve `np.dot(np.linalg.pinv(X), y)` of the external
linear-algebra library, taken as an explicit argument. -/
def Lstsq (m : EMModel) : Type :=
  (Fin m.T → Fin m.order → ℝ) → (Fin m.T → ℝ) → Fin m.order → ℝ

/-- `coeffs[i] = np.dot(np.linalg.pinv(tmp_exog), tmp_endog)`. -/
def emCoeffs (m : EMModel) (betas probs : ℕ → ℕ → ℝ) (lstsq : Lstsq m)
    (i : ℕ) : Fin m.order → ℝ :=
  lstsq (emWExog m betas probs i) (emWEndog m betas probs i)

/-- Per-regime variance in the `switching_variance` branch: unweighted
residuals, probability-weighted sum of squares, normalized by the summed
probabilities. -/
def emVarSwitch (m : EMModel) (betas probs : ℕ → ℕ → ℝ) (lstsq : Lstsq m)
    (i : ℕ) : ℝ :=
  (∑ t : Fin m.T,
      (emEndog m betas i t -
        ∑ j : Fin m.order, emExogLag m betas i t j * emCoeffs m betas probs lstsq i j) ^ 2 *
      probs i t) /
    (∑ t : Fin m.T, probs i t)

/-- Per-regime term of the non-switching branch:
`variance[i] = np.sum((tmp_endog - np.dot(tmp_exog, coeffs[i]))**2)`. -/
def emVarPoolTerm (m : EMModel) (betas probs : ℕ → ℕ → ℝ) (lstsq : Lstsq m)
    (i : ℕ) : ℝ :=
  ∑ t : Fin m.T,
    (emWEndog m betas probs i t -
      ∑ j : Fin m.order, emWExog m betas probs i t j * emCoeffs m betas probs lstsq i j) ^ 2

/-- The shared scalar variance of the non-switching branch:
`variance = variance.sum() / self.nobs`. -/
def emVariancePooled (m : EMModel) (betas probs : ℕ → ℕ → ℝ)
    (lstsq : Lstsq m) : ℝ :=
  (∑ i ∈ Finset.range m.k, emVarPoolTerm m betas probs lstsq i) / m.T

/-- The parameter blocks of the flat parameter vector that `_em_iteration`
reads and writes (the transition-probability block is never touched by this
subclass and is carried opaquely). -/
structure EmParamsVec where
  exogCoeffs : ℕ → ℕ → ℝ
  ar : ℕ → ℕ → ℝ
  variance : ℕ → ℝ
  transition : ℕ → ℝ

/-- `_em_iteration(params0)` after the inherited
`markov_switching.MarkovSwitching._em_iteration` call, whose output
`params1` (and smoothed probabilities `probs`) are inputs here; the
exogenous-coefficient update `_em_exog` lives in the base-class module and
enters as the opaque `emExogFn`.  The source guards the autoregressive
update by `if self.order > 0:` and then by the literal
`if True or self._k_exog > 0:`; the `else` branch (an `_em_exog` /
`_em_variance` update, entering here as the opaque `altArFn` / `altVarFn`)
is embedded as written. -/
def emIteration (m : EMModel) (switchingVariance : Bool)
    (params1 : EmParamsVec) (probs : ℕ → ℕ → ℝ) (emExogFn : ℕ → ℕ → ℝ)
    (lstsq : Lstsq m) (altArFn : ℕ → ℕ → ℝ) (altVarFn : ℕ → ℝ) :
    EmParamsVec :=
  let p1 := if 0 < m.kExog then { params1 with exogCoeffs := emExogFn }
    else params1
  let betas := if 0 < m.kExog then emExogFn else fun _ _ => 0
  if 0 < m.order then
    if true || 0 < m.kExog then
      { p1 with
        ar := fun i j =>
          if hj : i < m.k ∧ j < m.order then
            emCoeffs m betas probs lstsq i ⟨j, hj.2⟩
          else p1.ar i j,
        variance := fun i =>
          if switchingVariance then
            if i < m.k then emVarSwitch m betas probs lstsq i else p1.variance i
          else
            if i = 0 then emVariancePooled m betas probs lstsq
            else p1.variance i }
    else
      { p1 with ar := altArFn, variance := altVarFn }
  else p1

/-- Data consumed by the `start_params` property. -/
structure SPModel where
  k : ℕ
  order : ℕ
  T : ℕ
  kExog : ℕ
  origEndog : ℕ → ℝ
  exog : ℕ → ℕ → ℝ

/-- The trimmed endogenous series used by `start_params`. -/
def spEndog (m : SPModel) (t : ℕ) : ℝ := m.origEndog (m.order + t)

/-- The pooled design `np.c_[self.exog, self.exog_ar]`: the first `kExog`
columns are the trimmed design matrix, the next `order` columns the lag
matrix `lagmat(endog, order)[order:]` (column `j` is the series at absolute
index `order + t - (j + 1)`).  When one of the groups is absent its columns
are simply missing, which the column-count bound `kExog + order` already
encodes. -/
def spDesign (m : SPModel) (t c : ℕ) : ℝ :=
  if c < m.kExog then m.exog (m.order + t) c
  else m.origEndog (m.order + t - (c - m.kExog + 1))

/-- The pseudo-inverse solve for the pooled OLS start: abstract external
routine. -/
def SPLstsq : Type := (ℕ → ℕ → ℝ) → (ℕ → ℝ) → ℕ → ℝ

/-- `beta = np.dot(np.linalg.pinv(exog), endog)`. -/
def spBeta (m : SPModel) (lstsq : SPLstsq) : ℕ → ℝ :=
  lstsq (spDesign m) (spEndog m)

/-- `np.var`: mean squared deviation from the mean over the trimmed
sample. -/
def npVar (T : ℕ) (x : ℕ → ℝ) : ℝ :=
  (∑ t ∈ Finset.range T, (x t - (∑ s ∈ Finset.range T, x s) / T) ^ 2) / T

/-- `variance = np.var(endog - np.dot(exog, beta))` (when `kExog + order`
is zero the empty dot product makes this `np.var(endog)`, exactly the
other branch of the source). -/
def spV (m : SPModel) (lstsq : SPLstsq) : ℝ :=
  npVar m.T (fun t =>
    spEndog m t -
      ∑ c ∈ Finset.range (m.kExog + m.order), spDesign m t c * spBeta m lstsq c)

/-- `np.linspace(a, b, num)` entry `i`: evenly spaced samples including
both endpoints (a single sample is just `a`). -/
def npLinspace (a b : ℝ) (num i : ℕ) : ℝ :=
  if num ≤ 1 then a else a + (b - a) * i / (num - 1 : ℕ)

/-- Regime-`i` regression-coefficient block of `start_params`:
`beta[:k_exog] * (i / k_regimes)` when any exogenous coefficient switches,
else the shared `beta[:k_exog]`. -/
def spExogCoeff (m : SPModel) (lstsq : SPLstsq) (anySwitchExog : Bool)
    (i c : ℕ) : ℝ :=
  if anySwitchExog then spBeta m lstsq c * ((i : ℝ) / m.k)
  else spBeta m lstsq c

/-- Regime-`i` autoregressive block of `start_params`:
`beta[k_exog:] * (i / k_regimes)` when any AR coefficient switches, else
the shared `beta[k_exog:]`. -/
def spArCoeff (m : SPModel) (lstsq : SPLstsq) (anySwitchAr : Bool)
    (i j : ℕ) : ℝ :=
  if anySwitchAr then spBeta m lstsq (m.kExog + j) * ((i : ℝ) / m.k)
  else spBeta m lstsq (m.kExog + j)

/-- Variance entries of `start_params`:
`np.linspace(variance / 10., variance, num=k_regimes)` when the variance
switches, else the single scalar `variance`. -/
def spVariance (m : SPModel) (lstsq : SPLstsq) (switchingVariance : Bool)
    (i : ℕ) : ℝ :=
  if switchingVariance then npLinspace (spV m lstsq / 10) (spV m lstsq) m.k i
  else spV m lstsq

/-- The `switching_ar` argument of the constructor: a single boolean or an
explicit per-lag sequence. -/
inductive SwitchingSpec where
  | flag (b : Bool)
  | seq (l : List Bool)

/-- The `switching_ar` normalization at the top of `__init__`: a boolean is
replicated `order` times; an iterable of the wrong length raises
`ValueError`. -/
def initSwitchingAr (order : ℕ) (sw : SwitchingSpec) :
    Except String (List Bool) :=
  match sw with
  | SwitchingSpec.flag b => Except.ok (List.replicate order b)
  | SwitchingSpec.seq l =>
      if l.length = order then Except.ok l
      else Except.error "Invalid iterable passed to switching_ar."

/-- The two `ValueError` checks of `__init__` in source order: first the
`switching_ar` length check, then (after the base-class initializer) the
`self.nobs <= self.order` sample-size check. -/
def initChecks (nobs order : ℕ) (sw : SwitchingSpec) :
    Except String (List Bool) :=
  match initSwitchingAr order sw with
  | Except.error e => Except.error e
  | Except.ok s =>
      if nobs ≤ order then
        Except.error
          "Must have more observations than the order of the autoregression."
      else Except.ok s

end MarkovAR

namespace StatTransform

/-- Modelled from the spec: the bounded squashing function carrying one
unconstrained scalar to a partial autocorrelation in `(-1, 1)`
(spec section 4.3); the missing source is
`statsmodels.tsa.statespace.tools.constrain_stationary_univariate`. -/
def squash (x : ℝ) : ℝ := x / Real.sqrt (1 + x ^ 2)

/-- Modelled from the spec: the inverse squashing function carrying a
partial autocorrelation in `(-1, 1)` back to an unconstrained scalar. -/
def unsquash (r : ℝ) : ℝ := r / Real.sqrt (1 - r ^ 2)

/-- Modelled from the spec: one step of the Levinson-Durbin-style
recursion expanding partial autocorrelations to AR coefficients
(spec section 4.3).  From the previous coefficient row `prev` of length `p`
and the next partial autocorrelation `r`, the new row of length `p + 1` has
entries `prev[i] + r * prev[p - 1 - i]` followed by `r`. -/
def ldStep (prev : List ℝ) (r : ℝ) : List ℝ :=
  List.zipWith (fun a b => a + r * b) prev prev.reverse ++ [r]

/-- Modelled from the spec: the full Levinson-Durbin expansion from a list
of partial autocorrelations to AR coefficients. -/
def ldExpand (rs : List ℝ) : List ℝ := rs.foldl ldStep []

/-- Modelled from the spec: one step of the inverse recursion recovering
the previous coefficient row from a row of length `p + 1`, using its last
entry as the level-`p` partial autocorrelation:
`prev[i] = (row[i] - r * row[p - 1 - i]) / (1 - r^2)`. -/
def ldStepInv (row : List ℝ) : List ℝ :=
  List.zipWith
    (fun a b => (a - row.getLastD 0 * b) / (1 - row.getLastD 0 ^ 2))
    row.dropLast row.dropLast.reverse

/-- Fuel-indexed driver of the inverse recursion, collecting the partial
autocorrelations from level `0` upward. -/
def ldContractAux : ℕ → List ℝ → List ℝ
  | 0, _ => []
  | n + 1, row => ldContractAux n (ldStepInv row) ++ [row.getLastD 0]

/-- Modelled from the spec: the full inverse Levinson-Durbin recursion from
AR coefficients back to partial autocorrelations. -/
def ldContract (row : List ℝ) : List ℝ := ldContractAux row.length row

/-- Modelled from the spec: `to_constrained` of section 4.3 — squash each
unconstrained scalar into `(-1, 1)` and expand through the recursion.
The missing source is
`statsmodels.tsa.statespace.tools.constrain_stationary_univariate`. -/
def constrain_stationary_univariate (x : List ℝ) : List ℝ :=
  ldExpand (x.map squash)

/-- Modelled from the spec: `to_unconstrained` of section 4.3 — contract
the coefficients to partial autocorrelations and unsquash each.  The
missing source is
`statsmodels.tsa.statespace.tools.unconstrain_stationary_univariate`. -/
def unconstrain_stationary_univariate (y : List ℝ) : List ℝ :=
  (ldContract y).map unsquash

/-- The per-regime application of the transform in
`MarkovAutoregression.transform_params`: the autoregressive block of each regime
is constrained independently. -/
def transform_params_ar (blocks : List (List ℝ)) : List (List ℝ) :=
  blocks.map constrain_stationary_univariate

/-- The per-regime application of the inverse transform in
`MarkovAutoregression.untransform_params`. -/
def untransform_params_ar (blocks : List (List ℝ)) : List (List ℝ) :=
  blocks.map unconstrain_stationary_univariate

/-- The stationary region, characterized through the recursion itself: the
coefficient blocks whose recovered partial autocorrelations all lie
strictly inside `(-1, 1)`. -/
def InStationaryRegion (y : List ℝ) : Prop :=
  ∀ r ∈ ldContract y, r ^ 2 < 1

end StatTransform

namespace MarkovAR

theorem foldl_sliceSubLag_entry (i j : ℕ) (δ : ℕ → ℕ → ℝ) (l : List ℕ)
    (A : Tensor) (a : ℕ) (h : ℕ → ℕ) (t : ℕ) :
    (l.foldl (fun C mreg => sliceSubLag C i j mreg (δ mreg)) A) a h t
      = A a h t -
        (l.map (fun mreg => if a = i ∧ h j = mreg then δ mreg t else 0)).sum := by
  induction l generalizing A with
  | nil => simp
  | cons mr rest ih =>
      simp only [List.foldl_cons, List.map_cons, List.sum_cons]
      rw [ih]
      by_cases hc : a = i ∧ h j = mr
      · simp only [sliceSubLag, if_pos hc, if_pos hc.1, if_pos hc.2, hc,
          and_self, ite_true]
        ring
      · simp only [sliceSubLag, if_neg hc, hc, ite_false]
        ring

theorem foldl_lagLoop_entry (m : ResidModel) (i : ℕ) (l : List ℕ)
    (A : Tensor) (a : ℕ) (h : ℕ → ℕ) (t : ℕ) :
    (l.foldl (fun B j0 => (List.range m.k).foldl
        (fun C mreg => sliceSubLag C i (j0 + 1) mreg (arLagTerm m i (j0 + 1) mreg))
        B) A) a h t
      = A a h t -
        (l.map (fun j0 => ((List.range m.k).map
          (fun mreg => if a = i ∧ h (j0 + 1) = mreg
            then arLagTerm m i (j0 + 1) mreg t else 0)).sum)).sum := by
  induction l generalizing A with
  | nil => simp
  | cons j0 rest ih =>
      simp only [List.foldl_cons, List.map_cons, List.sum_cons]
      rw [ih, foldl_sliceSubLag_entry]
      ring

theorem list_range_sum_ite (n v : ℕ) (f : ℕ → ℝ) :
    ((List.range n).map (fun mreg => if v = mreg then f mreg else 0)).sum
      = if v < n then f v else 0 := by
  induction n with
  | zero => simp
  | succ n ih =>
      rw [List.range_succ, List.map_append, List.sum_append, ih]
      rcases Nat.lt_trichotomy v n with hv | hv | hv
      · rw [if_pos hv, if_pos (Nat.lt_succ_of_lt hv)]
        simp [Nat.ne_of_lt hv]
      · subst hv
        simp
      · have hne : v ≠ n := by omega
        rw [if_neg (by omega), if_neg (by omega)]
        simp [hne]

theorem list_range_map_sum (n : ℕ) (f : ℕ → ℝ) :
    ((List.range n).map f).sum = ∑ j ∈ Finset.range n, f j := by
  induction n with
  | zero => simp
  | succ n ih =>
      rw [List.range_succ, List.map_append, List.sum_append,
        Finset.sum_range_succ, ih]
      simp

theorem regimePass_entry (m : ResidModel) (A : Tensor) (i a : ℕ)
    (h : ℕ → ℕ) (t : ℕ) (hh : ∀ j, 1 ≤ j → j ≤ m.order → h j < m.k) :
    regimePass m A i a h t =
      if a = i then
        A a h t - (if 0 < m.kExog then xb m i (m.order + t) else 0)
          - ∑ j0 ∈ Finset.range m.order, arLagTerm m i (j0 + 1) (h (j0 + 1)) t
      else A a h t := by
  unfold regimePass
  rw [foldl_lagLoop_entry]
  by_cases hai : a = i
  · subst hai
    have hinner : ∀ j0 : ℕ, j0 < m.order →
        ((List.range m.k).map
          (fun mreg => if a = a ∧ h (j0 + 1) = mreg
            then arLagTerm m a (j0 + 1) mreg t else 0)).sum
          = arLagTerm m a (j0 + 1) (h (j0 + 1)) t := by
      intro j0 hj0
      have heq : (fun mreg => if a = a ∧ h (j0 + 1) = mreg
          then arLagTerm m a (j0 + 1) mreg t else 0)
          = (fun mreg => if h (j0 + 1) = mreg
            then arLagTerm m a (j0 + 1) mreg t else 0) := by
        funext mreg
        simp
      rw [heq, list_range_sum_ite]
      rw [if_pos (hh (j0 + 1) (by omega) (by omega))]
    have hmap : (List.range m.order).map
        (fun j0 => ((List.range m.k).map
          (fun mreg => if a = a ∧ h (j0 + 1) = mreg
            then arLagTerm m a (j0 + 1) mreg t else 0)).sum)
        = (List.range m.order).map
          (fun j0 => arLagTerm m a (j0 + 1) (h (j0 + 1)) t) := by
      apply List.map_congr_left
      intro j0 hj0
      exact hinner j0 (List.mem_range.mp hj0)
    rw [hmap, list_range_map_sum, if_pos rfl]
    by_cases hke : 0 < m.kExog
    · simp only [if_pos hke, sliceSubBase]
      simp
    · simp only [if_neg hke]
      ring
  · rw [if_neg hai]
    have hz : ∀ j0 : ℕ, ((List.range m.k).map
        (fun mreg => if a = i ∧ h (j0 + 1) = mreg
          then arLagTerm m i (j0 + 1) mreg t else 0)).sum = 0 := by
      intro j0
      have : ∀ mreg : ℕ, (if a = i ∧ h (j0 + 1) = mreg
          then arLagTerm m i (j0 + 1) mreg t else 0) = 0 := by
        intro mreg
        rw [if_neg]
        intro hc
        exact hai hc.1
      simp only [this]
      simp
    have hmap : (List.range m.order).map
        (fun j0 => ((List.range m.k).map
          (fun mreg => if a = i ∧ h (j0 + 1) = mreg
            then arLagTerm m i (j0 + 1) mreg t else 0)).sum)
        = (List.range m.order).map (fun _ => (0 : ℝ)) := by
      apply List.map_congr_left
      intro j0 _
      exact hz j0
    rw [hmap]
    by_cases hke : 0 < m.kExog
    · simp only [if_pos hke, sliceSubBase, if_neg hai]
      simp
    · simp only [if_neg hke]
      simp

theorem foldl_regimePass_entry (m : ResidModel) (l : List ℕ) (hnd : l.Nodup)
    (A : Tensor) (a : ℕ) (h : ℕ → ℕ) (t : ℕ)
    (hh : ∀ j, 1 ≤ j → j ≤ m.order → h j < m.k) :
    (l.foldl (regimePass m) A) a h t =
      A a h t - (if a ∈ l then
        (if 0 < m.kExog then xb m a (m.order + t) else 0)
          + ∑ j0 ∈ Finset.range m.order, arLagTerm m a (j0 + 1) (h (j0 + 1)) t
        else 0) := by
  induction l generalizing A with
  | nil => simp
  | cons i rest ih =>
      have hnd' : rest.Nodup := hnd.of_cons
      have hni : i ∉ rest := by
        intro hmem
        exact (List.nodup_cons.mp hnd).1 hmem
      rw [List.foldl_cons, ih hnd', regimePass_entry m A i a h t hh]
      by_cases hai : a = i
      · subst hai
        rw [if_pos rfl, if_pos (List.mem_cons_self a rest), if_neg hni]
        ring
      · rw [if_neg hai]
        have hmem : (a ∈ i :: rest) ↔ (a ∈ rest) := by
          simp [List.mem_cons, hai]
        simp only [hmem]

theorem residTensor_entry (m : ResidModel) (a : ℕ) (h : ℕ → ℕ) (t : ℕ)
    (ha : a < m.k) (hh : ∀ j, 1 ≤ j → j ≤ m.order → h j < m.k) :
    residTensor m a h t =
      m.origEndog (m.order + t)
        - (if 0 < m.kExog then xb m a (m.order + t) else 0)
        - ∑ j0 ∈ Finset.range m.order, m.ar a j0 *
            (m.origEndog (m.order - (j0 + 1) + t) -
              if 0 < m.kExog then xb m (h (j0 + 1)) (m.order - (j0 + 1) + t)
              else 0) := by
  unfold residTensor
  rw [foldl_regimePass_entry m (List.range m.k) (List.nodup_range _) _ a h t hh]
  rw [if_pos (List.mem_range.mpr ha)]
  have : ∀ j0 ∈ Finset.range m.order,
      arLagTerm m a (j0 + 1) (h (j0 + 1)) t
        = m.ar a j0 * (m.origEndog (m.order - (j0 + 1) + t) -
            if 0 < m.kExog then xb m (h (j0 + 1)) (m.order - (j0 + 1) + t)
            else 0) := by
    intro j0 _
    unfold arLagTerm
    simp
  rw [Finset.sum_congr rfl this]
  ring

end MarkovAR

namespace StatTransform

theorem length_ldStep (prev : List ℝ) (r : ℝ) :
    (ldStep prev r).length = prev.length + 1 := by
  simp [ldStep]

theorem length_foldl_ldStep (rs : List ℝ) (A : List ℝ) :
    (rs.foldl ldStep A).length = A.length + rs.length := by
  induction rs generalizing A with
  | nil => simp
  | cons r rest ih =>
      rw [List.foldl_cons, ih, length_ldStep]
      simp only [List.length_cons]
      omega

theorem length_ldExpand (rs : List ℝ) : (ldExpand rs).length = rs.length := by
  unfold ldExpand
  rw [length_foldl_ldStep]
  simp

theorem length_ldStepInv (row : List ℝ) :
    (ldStepInv row).length = row.length - 1 := by
  simp [ldStepInv]

theorem getLastD_ldStep (prev : List ℝ) (r : ℝ) :
    (ldStep prev r).getLastD 0 = r := by
  unfold ldStep
  exact List.getLastD_concat _ _ _

theorem dropLast_ldStep (prev : List ℝ) (r : ℝ) :
    (ldStep prev r).dropLast
      = List.zipWith (fun a b => a + r * b) prev prev.reverse := by
  unfold ldStep
  exact List.dropLast_concat

theorem ldStepInv_ldStep (prev : List ℝ) (r : ℝ) (hr : r ^ 2 ≠ 1) :
    ldStepInv (ldStep prev r) = prev := by
  have hden : 1 - r ^ 2 ≠ 0 := by
    intro hc
    apply hr
    linarith
  unfold ldStepInv
  rw [getLastD_ldStep, dropLast_ldStep]
  set Z := List.zipWith (fun a b => a + r * b) prev prev.reverse with hZ
  have hZlen : Z.length = prev.length := by simp [hZ]
  have hZrev : Z.reverse = List.zipWith (fun a b => a + r * b) prev.reverse prev := by
    rw [hZ, List.reverse_zipWith (by simp), List.reverse_reverse]
  apply List.ext_getElem
  · simp [hZlen]
  · intro i h1 h2
    simp only [List.getElem_zipWith, hZrev, hZ]
    field_simp
    ring

theorem ldContract_nil : ldContract ([] : List ℝ) = [] := rfl

theorem ldContract_ldStep (prev : List ℝ) (r : ℝ) (hr : r ^ 2 ≠ 1) :
    ldContract (ldStep prev r) = ldContract prev ++ [r] := by
  unfold ldContract
  rw [length_ldStep]
  show ldContractAux (prev.length + 1) (ldStep prev r) = _
  rw [ldContractAux, ldStepInv_ldStep prev r hr, getLastD_ldStep]

theorem ldContract_ldExpand (rs : List ℝ) (h : ∀ r ∈ rs, r ^ 2 ≠ 1) :
    ldContract (ldExpand rs) = rs := by
  induction rs using List.reverseRecOn with
  | nil => rfl
  | append_singleton l a ih =>
      have ha : a ^ 2 ≠ 1 := h a (by simp)
      have hl : ∀ r ∈ l, r ^ 2 ≠ 1 := by
        intro r hrmem
        exact h r (by simp [hrmem])
      unfold ldExpand
      rw [List.foldl_concat]
      have : List.foldl ldStep [] l = ldExpand l := rfl
      rw [this, ldContract_ldStep _ _ ha, ih hl]

theorem ldStep_ldStepInv (row : List ℝ) (hrow : row ≠ [])
    (hr : (row.getLastD 0) ^ 2 ≠ 1) :
    ldStep (ldStepInv row) (row.getLastD 0) = row := by
  rcases List.eq_nil_or_concat row with hnil | ⟨F, x, hFx⟩
  · exact absurd hnil hrow
  · rw [List.concat_eq_append] at hFx
    subst hFx
    rw [List.getLastD_concat] at hr ⊢
    have hden : 1 - x ^ 2 ≠ 0 := by
      intro hc
      apply hr
      linarith
    unfold ldStepInv ldStep
    rw [List.getLastD_concat, List.dropLast_concat]
    set P := List.zipWith (fun a b => (a - x * b) / (1 - x ^ 2)) F F.reverse
      with hP
    have hPlen : P.length = F.length := by simp [hP]
    have hPrev : P.reverse
        = List.zipWith (fun a b => (a - x * b) / (1 - x ^ 2)) F.reverse F := by
      rw [hP, List.reverse_zipWith (by simp), List.reverse_reverse]
    have hmain : List.zipWith (fun a b => a + x * b) P P.reverse = F := by
      apply List.ext_getElem
      · simp [hPlen]
      · intro i h1 h2
        simp only [List.getElem_zipWith, hPrev, hP]
        field_simp
        ring
    rw [hmain]

theorem ldExpand_ldContract_aux (n : ℕ) :
    ∀ row : List ℝ, row.length = n → (∀ r ∈ ldContract row, r ^ 2 ≠ 1) →
      ldExpand (ldContract row) = row := by
  induction n with
  | zero =>
      intro row hlen _
      rw [List.length_eq_zero] at hlen
      subst hlen
      rfl
  | succ n ih =>
      intro row hlen h
      have hrow : row ≠ [] := by
        intro hc
        subst hc
        simp at hlen
      have hsplit : ldContract row
          = ldContract (ldStepInv row) ++ [row.getLastD 0] := by
        unfold ldContract
        rw [hlen, length_ldStepInv, hlen, Nat.add_sub_cancel]
        rfl
      have hlast : (row.getLastD 0) ^ 2 ≠ 1 := by
        apply h
        rw [hsplit]
        simp
      have hrest : ∀ r ∈ ldContract (ldStepInv row), r ^ 2 ≠ 1 := by
        intro r hrmem
        apply h
        rw [hsplit]
        simp [hrmem]
      have hlenInv : (ldStepInv row).length = n := by
        rw [length_ldStepInv, hlen]
        omega
      rw [hsplit]
      unfold ldExpand
      rw [List.foldl_concat]
      have : List.foldl ldStep [] (ldContract (ldStepInv row))
          = ldExpand (ldContract (ldStepInv row)) := rfl
      rw [this, ih (ldStepInv row) hlenInv hrest]
      exact ldStep_ldStepInv row hrow hlast

theorem ldExpand_ldContract (row : List ℝ)
    (h : ∀ r ∈ ldContract row, r ^ 2 ≠ 1) :
    ldExpand (ldContract row) = row :=
  ldExpand_ldContract_aux row.length row rfl h

theorem squash_sq_lt_one (x : ℝ) : (squash x) ^ 2 < 1 := by
  have hx : (0 : ℝ) < 1 + x ^ 2 := by positivity
  have hs : Real.sqrt (1 + x ^ 2) ^ 2 = 1 + x ^ 2 := Real.sq_sqrt hx.le
  unfold squash
  rw [div_pow, hs]
  rw [div_lt_one hx]
  linarith

theorem unsquash_squash (x : ℝ) : unsquash (squash x) = x := by
  have hx : (0 : ℝ) < 1 + x ^ 2 := by positivity
  have hs : Real.sqrt (1 + x ^ 2) ^ 2 = 1 + x ^ 2 := Real.sq_sqrt hx.le
  have hspos : 0 < Real.sqrt (1 + x ^ 2) := Real.sqrt_pos.mpr hx
  unfold unsquash squash
  have h1 : 1 - (x / Real.sqrt (1 + x ^ 2)) ^ 2 = (1 + x ^ 2)⁻¹ := by
    rw [div_pow, hs]
    field_simp
  rw [h1, Real.sqrt_inv]
  field_simp

theorem squash_unsquash (r : ℝ) (h : r ^ 2 < 1) : squash (unsquash r) = r := by
  have hr : (0 : ℝ) < 1 - r ^ 2 := by linarith
  have ht : Real.sqrt (1 - r ^ 2) ^ 2 = 1 - r ^ 2 := Real.sq_sqrt hr.le
  have htpos : 0 < Real.sqrt (1 - r ^ 2) := Real.sqrt_pos.mpr hr
  unfold squash unsquash
  have h1 : 1 + (r / Real.sqrt (1 - r ^ 2)) ^ 2 = (1 - r ^ 2)⁻¹ := by
    rw [div_pow, ht]
    field_simp
  rw [h1, Real.sqrt_inv]
  field_simp

theorem unconstrain_constrain (x : List ℝ) :
    unconstrain_stationary_univariate (constrain_stationary_univariate x) = x := by
  unfold unconstrain_stationary_univariate constrain_stationary_univariate
  rw [ldContract_ldExpand]
  · rw [List.map_map]
    conv_rhs => rw [← List.map_id x]
    apply List.map_congr_left
    intro a _
    exact unsquash_squash a
  · intro r hrmem
    rw [List.mem_map] at hrmem
    obtain ⟨a, _, rfl⟩ := hrmem
    exact ne_of_lt (squash_sq_lt_one a)

theorem constrain_unconstrain (y : List ℝ) (hy : InStationaryRegion y) :
    constrain_stationary_univariate (unconstrain_stationary_univariate y) = y := by
  unfold constrain_stationary_univariate unconstrain_stationary_univariate
  rw [List.map_map]
  have hmap : List.map (squash ∘ unsquash) (ldContract y) = ldContract y := by
    conv_rhs => rw [← List.map_id (ldContract y)]
    apply List.map_congr_left
    intro r hrmem
    exact squash_unsquash r (hy r hrmem)
  rw [hmap]
  apply ldExpand_ldContract
  intro r hrmem
  exact ne_of_lt (hy r hrmem)

end StatTransform

namespace MarkovAR

/-- C2: for a model with two regimes, order 1 and a constant trend, the
residual tensor entry at history `(S_t = 0, S_{t-1} = 1)` and trimmed time
`t` is `y_{t+1} - c_0 - phi_0 * (y_t - c_1)` (absolute series indices);
and in general the entry at current regime `a` and history `hst` is the
regime-`a` baseline residual minus, for each lag `j`, `phi_{a,j}` times the
lag-`j` value adjusted by the regression coefficients
of the historical regime `hst j`. -/
theorem c2_resid_entry (endog : ℕ → ℝ) (c φ : ℕ → ℝ) (nobs : ℕ)
    (h : ℕ → ℕ) (t : ℕ) (hh1 : h 1 = 1) :
    residTensor ⟨2, 1, nobs, 1, endog, fun _ _ => 1, fun i _ => c i,
        fun i _ => φ i⟩ 0 h t
      = endog (1 + t) - c 0 - φ 0 * (endog t - c 1)
    ∧ ∀ (m : ResidModel) (a : ℕ) (hst : ℕ → ℕ) (s : ℕ), a < m.k →
        (∀ j, 1 ≤ j → j ≤ m.order → hst j < m.k) →
        residTensor m a hst s =
          m.origEndog (m.order + s)
            - (if 0 < m.kExog then xb m a (m.order + s) else 0)
            - ∑ j0 ∈ Finset.range m.order, m.ar a j0 *
                (m.origEndog (m.order - (j0 + 1) + s) -
                  if 0 < m.kExog then
                    xb m (hst (j0 + 1)) (m.order - (j0 + 1) + s)
                  else 0) := by
  constructor
  · have hhv : ∀ j, 1 ≤ j → j ≤ 1 → h j < 2 := by
      intro j hj1 hj2
      have hj : j = 1 := by omega
      subst hj
      rw [hh1]
      norm_num
    have := residTensor_entry
      ⟨2, 1, nobs, 1, endog, fun _ _ => 1, fun i _ => c i, fun i _ => φ i⟩
      0 h t (by norm_num) hhv
    rw [this]
    simp [xb, Finset.sum_range_one, hh1]
  · intro m a hst s ha hh
    exact residTensor_entry m a hst s ha hh

/-- Witness for C2 at a concrete model. -/
theorem c2_resid_entry_witness :
    (fun _ : ℕ => 1) 1 = 1 ∧
    residTensor ⟨2, 1, 5, 1, fun n => (n : ℝ), fun _ _ => 1,
        fun i _ => (i : ℝ) + 1, fun i _ => (i : ℝ) + 3⟩ 0 (fun _ => 1) 0
      = ((1 : ℕ) : ℝ) - ((0 : ℕ) + 1 : ℝ) -
          (((0 : ℕ) : ℝ) + 3) * (((0 : ℕ) : ℝ) - (((1 : ℕ) : ℝ) + 1)) :=
  ⟨rfl, (c2_resid_entry (fun n => (n : ℝ)) (fun i => (i : ℝ) + 1)
    (fun i => (i : ℝ) + 3) 5 (fun _ => 1) 0 rfl).1⟩

/-- C6: the residual array has `order + 2` axes, the first `order + 1` of
extent `k` and the last of extent `T = nobsOrig - order`; and for
`order = 0` each entry is the plain regime-switching regression residual
with no lag term subtracted. -/
theorem c6_resid_shape (m : ResidModel) (a : ℕ) (hst : ℕ → ℕ) (t : ℕ)
    (ha : a < m.k) :
    (residShape m).length = m.order + 2
    ∧ (∀ b : ℕ, b < m.order + 1 → (residShape m).getD b 0 = m.k)
    ∧ (residShape m).getD (m.order + 1) 0 = m.nobsOrig - m.order
    ∧ (m.order = 0 → residTensor m a hst t
        = m.origEndog t - (if 0 < m.kExog then xb m a t else 0)) := by
  refine ⟨?_, ?_, ?_, ?_⟩
  · simp [residShape]
  · intro b hb
    unfold residShape
    rw [List.getD_append _ _ _ _ (by simp [hb])]
    simp [List.getD_eq_getElem?_getD, List.getElem?_replicate, hb]
  · unfold residShape ResidModel.T
    have hlen : (List.replicate (m.order + 1) m.k).length = m.order + 1 := by
      simp
    rw [← hlen]
    simp [List.getD_eq_getElem?_getD]
  · intro h0
    have hhv : ∀ j, 1 ≤ j → j ≤ m.order → hst j < m.k := by
      intro j hj1 hj2
      omega
    have := residTensor_entry m a hst t ha hhv
    rw [this, h0]
    simp

/-- Witness for C6 at a concrete model. -/
theorem c6_resid_shape_witness :
    (0 : ℕ) < 2 ∧
    residTensor ⟨2, 0, 5, 0, fun n => (n : ℝ), fun _ _ => 0, fun _ _ => 0,
        fun _ _ => 0⟩ 0 (fun _ => 0) 3
      = ((3 : ℕ) : ℝ) - (if (0 : ℕ) < 0 then
          xb ⟨2, 0, 5, 0, fun n => (n : ℝ), fun _ _ => 0, fun _ _ => 0,
            fun _ _ => 0⟩ 0 3 else 0) := by
  refine ⟨by norm_num, ?_⟩
  exact (c6_resid_shape
    ⟨2, 0, 5, 0, fun n => (n : ℝ), fun _ _ => 0, fun _ _ => 0, fun _ _ => 0⟩
    0 (fun _ => 0) 3 (by norm_num)).2.2.2 rfl

end MarkovAR

namespace StatTransform

/-- C3: the stationarity transform and its inverse round-trip exactly:
`to_unconstrained (to_constrained x) = x` for every finite block `x`, and
`to_constrained (to_unconstrained y) = y` for every block `y` in the
stationary region; applied per regime block (as `transform_params` /
`untransform_params` do), the round trip is the identity on every block. -/
theorem c3_stationarity_roundtrip (x y : List ℝ) (blocks : List (List ℝ))
    (hy : InStationaryRegion y) :
    unconstrain_stationary_univariate (constrain_stationary_univariate x) = x
    ∧ constrain_stationary_univariate (unconstrain_stationary_univariate y) = y
    ∧ untransform_params_ar (transform_params_ar blocks) = blocks := by
  refine ⟨unconstrain_constrain x, constrain_unconstrain y hy, ?_⟩
  unfold untransform_params_ar transform_params_ar
  rw [List.map_map]
  conv_rhs => rw [← List.map_id blocks]
  apply List.map_congr_left
  intro b _
  exact unconstrain_constrain b

/-- Witness for C3 at concrete blocks. -/
theorem c3_stationarity_roundtrip_witness :
    InStationaryRegion [(1 : ℝ) / 2] ∧
    unconstrain_stationary_univariate
        (constrain_stationary_univariate [(1 : ℝ)]) = [(1 : ℝ)] := by
  have hy : InStationaryRegion [(1 : ℝ) / 2] := by
    intro r hr
    simp only [ldContract, ldContractAux, List.length_singleton,
      List.nil_append, List.getLastD] at hr
    rw [List.mem_singleton] at hr
    subst hr
    norm_num
  exact ⟨hy,
    (c3_stationarity_roundtrip [(1 : ℝ)] [(1 : ℝ) / 2] [[(1 : ℝ)]] hy).1⟩

end StatTransform

namespace MarkovAR

theorem gaussDens_zero_left (v : ℝ) :
    gaussDens 0 v = 1 / Real.sqrt (2 * Real.pi * v) := by
  unfold gaussDens
  norm_num

theorem gaussDens_of_nonpos (r v : ℝ) (hv : v ≤ 0) : gaussDens r v = 0 := by
  unfold gaussDens
  have hs : Real.sqrt (2 * Real.pi * v) = 0 := by
    rw [Real.sqrt_eq_zero']
    nlinarith [Real.pi_pos]
  rw [hs, div_zero]

theorem residTensor_zero_model :
    residTensor ⟨2, 2, 5, 0, fun _ => 0, fun _ _ => 0, fun _ _ => 0,
        fun _ _ => 0⟩ 1 (fun _ => 0) 0 = 0 := by
  have := residTensor_entry
    ⟨2, 2, 5, 0, fun _ => 0, fun _ _ => 0, fun _ _ => 0, fun _ _ => 0⟩
    1 (fun _ => 0) 0 (by norm_num) (by intro j _ _; norm_num)
  rw [this]
  simp

/-- C1: evaluation of the code at the failing input `order = 2`,
`switching_variance` on, `k = 2`, per-regime variances `(1, 4)`, zero
residuals.  The density entry at current regime `i = 1` with all
historical regimes `0` is computed with variance `1` — the variance of the
regime on the `S_{t-1}` axis (axis `order - 1 = 1`), produced by
broadcasting the `(k, 1, 1)`-reshaped variance vector — and differs from
the per-current-regime density prescribed by the claim, which would use
variance `4`. -/
theorem c1_switch_variance_wrong_axis :
    condLikSwitchEntry
        ⟨2, 2, 5, 0, fun _ => 0, fun _ _ => 0, fun _ _ => 0, fun _ _ => 0⟩
        (fun a => if a = 0 then 1 else 4) 1 (fun _ => 0) 0
      = gaussDens 0 1
    ∧ gaussDens 0 1 ≠ gaussDens 0 4 := by
  constructor
  · unfold condLikSwitchEntry switchVarIndex
    rw [residTensor_zero_model]
    norm_num
  · rw [gaussDens_zero_left, gaussDens_zero_left]
    have hlt : Real.sqrt (2 * Real.pi * 1) < Real.sqrt (2 * Real.pi * 4) := by
      apply Real.sqrt_lt_sqrt (by positivity)
      nlinarith [Real.pi_pos]
    have hpos : 0 < Real.sqrt (2 * Real.pi * 1) := by
      apply Real.sqrt_pos.mpr
      nlinarith [Real.pi_pos]
    have := one_div_lt_one_div_of_lt hpos hlt
    exact ne_of_gt this

/-- C7 counterexample: at a concrete model with variance `0`, the source
computation returns a density tensor (it contains no check), whereas the
spec-modelled checked computation signals a domain error; the two
disagree, refuting the claim that the source raises at the point of
detection. -/
theorem c7_no_check_counterexample :
    Except.ok (fun i h t => condLikEntry
        ⟨2, 2, 5, 0, fun _ => 0, fun _ _ => 0, fun _ _ => 0, fun _ _ => 0⟩
        0 i h t)
      ≠ conditional_likelihoods_checked
        ⟨2, 2, 5, 0, fun _ => 0, fun _ _ => 0, fun _ _ => 0, fun _ _ => 0⟩
        0 := by
  unfold conditional_likelihoods_checked
  rw [if_pos le_rfl]
  simp

/-- C7 (amended): the density computation performs no validation of the
variance: with a zero or negative variance it still returns a tensor and
raises nothing; under the total real arithmetic of the embedding every affected
entry evaluates to `0` (a degenerate density), both for the shared scalar
variance and for a non-positive per-regime variance entry. -/
theorem c7_nonpositive_variance_degenerate (m : ResidModel) (v : ℝ)
    (var : ℕ → ℝ) (i : ℕ) (h : ℕ → ℕ) (t : ℕ) (hv : v ≤ 0)
    (hvar : var (switchVarIndex m.order i h) ≤ 0) :
    condLikEntry m v i h t = 0 ∧ condLikSwitchEntry m var i h t = 0 := by
  constructor
  · exact gaussDens_of_nonpos _ _ hv
  · exact gaussDens_of_nonpos _ _ hvar

/-- C4: when the smoothed probabilities assign probability 1 to the single
regime `istar` at every time point (and 0 elsewhere), the EM
autoregressive step returns for `istar` exactly the unweighted
least-squares AR fit of the regime-adjusted series on its own `order`
lags: the sqrt-probability weights are identically 1 and drop out of the
pseudo-inverse solve. -/
theorem c4_em_degenerate_probs (m : EMModel) (betas probs : ℕ → ℕ → ℝ)
    (lstsq : Lstsq m) (istar : ℕ)
    (hone : ∀ t : Fin m.T, probs istar t = 1)
    (_hzero : ∀ i, i ≠ istar → ∀ t : Fin m.T, probs i t = 0) :
    emCoeffs m betas probs lstsq istar
      = lstsq (emExogLag m betas istar) (emEndog m betas istar) := by
  unfold emCoeffs
  have hw1 : emWExog m betas probs istar = emExogLag m betas istar := by
    funext t j
    unfold emWExog emTmp
    rw [hone t, Real.sqrt_one, one_mul]
  have hw2 : emWEndog m betas probs istar = emEndog m betas istar := by
    funext t
    unfold emWEndog emTmp
    rw [hone t, Real.sqrt_one, one_mul]
  rw [hw1, hw2]

/-- Witness for C4 at a concrete model. -/
theorem c4_em_degenerate_probs_witness :
    (∀ t : Fin (1 : ℕ),
      (fun i _ : ℕ => if i = 0 then (1 : ℝ) else 0) 0 (t : ℕ) = 1) ∧
    emCoeffs ⟨1, 1, 1, 0, fun _ => 0, fun _ _ => 0⟩ (fun _ _ => 0)
        (fun i _ : ℕ => if i = 0 then (1 : ℝ) else 0) (fun _ _ _ => 0) 0
      = fun _ => (0 : ℝ) := by
  refine ⟨by intro t; simp, ?_⟩
  exact c4_em_degenerate_probs ⟨1, 1, 1, 0, fun _ => 0, fun _ _ => 0⟩
    (fun _ _ => 0) (fun i _ : ℕ => if i = 0 then (1 : ℝ) else 0)
    (fun _ _ _ => 0) 0 (by intro t; simp)
    (by intro i hi t; simp [hi])

/-- C5: with two regimes each given occupancy weight `1/2` at every time
point, no exogenous regressors (so both regime-adjusted series coincide
with the raw series) and a scalar-homogeneous pseudo-inverse solve, the
non-switching EM variance — the sqrt-weighted residual sums of squares
pooled over regimes and divided by `T` — equals the residual variance
`SSR / T` of the single unweighted OLS AR fit that ignores the regime
structure. -/
theorem c5_pooled_variance (m : EMModel) (betas probs : ℕ → ℕ → ℝ)
    (lstsq : Lstsq m) (hk : m.k = 2) (hke : m.kExog = 0)
    (hp : ∀ i, ∀ t : Fin m.T, probs i t = 1 / 2)
    (hhom : ∀ c : ℝ, c ≠ 0 →
      ∀ (X : Fin m.T → Fin m.order → ℝ) (yv : Fin m.T → ℝ),
        lstsq (fun t j => c * X t j) (fun t => c * yv t) = lstsq X yv) :
    emVariancePooled m betas probs lstsq
      = (∑ t : Fin m.T,
          (emEndog m betas 0 t - ∑ j : Fin m.order,
            emExogLag m betas 0 t j *
              lstsq (emExogLag m betas 0) (emEndog m betas 0) j) ^ 2) / m.T := by
  have hc2 : Real.sqrt (1 / 2 : ℝ) ^ 2 = 1 / 2 := Real.sq_sqrt (by norm_num)
  have hcne : Real.sqrt (1 / 2 : ℝ) ≠ 0 :=
    ne_of_gt (Real.sqrt_pos.mpr (by norm_num))
  have hresid : ∀ i t, emResid m betas i t = m.origEndog t := by
    intro i t
    unfold emResid
    rw [hke]
    simp
  have hE : ∀ i, emEndog m betas i = emEndog m betas 0 := by
    intro i
    funext t
    unfold emEndog
    rw [hresid, hresid]
  have hX : ∀ i, emExogLag m betas i = emExogLag m betas 0 := by
    intro i
    funext t j
    unfold emExogLag
    rw [hresid, hresid]
  have hCo : ∀ i, emCoeffs m betas probs lstsq i
      = lstsq (emExogLag m betas 0) (emEndog m betas 0) := by
    intro i
    unfold emCoeffs
    have h1 : emWExog m betas probs i
        = fun t j => Real.sqrt (1 / 2) * emExogLag m betas 0 t j := by
      funext t j
      unfold emWExog emTmp
      rw [hp i t, hX i]
    have h2 : emWEndog m betas probs i
        = fun t => Real.sqrt (1 / 2) * emEndog m betas 0 t := by
      funext t
      unfold emWEndog emTmp
      rw [hp i t, hE i]
    rw [h1, h2]
    exact hhom (Real.sqrt (1 / 2)) hcne _ _
  have hterm : ∀ i, emVarPoolTerm m betas probs lstsq i
      = 1 / 2 * ∑ t : Fin m.T,
          (emEndog m betas 0 t - ∑ j : Fin m.order,
            emExogLag m betas 0 t j *
              lstsq (emExogLag m betas 0) (emEndog m betas 0) j) ^ 2 := by
    intro i
    unfold emVarPoolTerm
    rw [Finset.mul_sum]
    apply Finset.sum_congr rfl
    intro t _
    have hs : ∑ j : Fin m.order,
        emWExog m betas probs i t j * emCoeffs m betas probs lstsq i j
        = Real.sqrt (1 / 2) * ∑ j : Fin m.order,
            emExogLag m betas 0 t j *
              lstsq (emExogLag m betas 0) (emEndog m betas 0) j := by
      rw [Finset.mul_sum]
      apply Finset.sum_congr rfl
      intro j _
      unfold emWExog emTmp
      rw [hp i t, hX i, hCo i]
      ring
    have hy : emWEndog m betas probs i t
        = Real.sqrt (1 / 2) * emEndog m betas 0 t := by
      unfold emWEndog emTmp
      rw [hp i t, hE i]
    rw [hs, hy, ← mul_sub, mul_pow, hc2]
  unfold emVariancePooled
  rw [hk, Finset.sum_range_succ, Finset.sum_range_one, hterm 0, hterm 1]
  ring

/-- Witness for C5 at a concrete model. -/
theorem c5_pooled_variance_witness :
    ((⟨2, 1, 1, 0, fun _ => 0, fun _ _ => 0⟩ : EMModel).k = 2) ∧
    emVariancePooled ⟨2, 1, 1, 0, fun _ => 0, fun _ _ => 0⟩ (fun _ _ => 0)
        (fun _ _ => 1 / 2) (fun _ _ _ => 0)
      = (∑ t : Fin (1 : ℕ),
          (emEndog ⟨2, 1, 1, 0, fun _ => 0, fun _ _ => 0⟩ (fun _ _ => 0) 0 t
            - ∑ j : Fin (1 : ℕ),
              emExogLag ⟨2, 1, 1, 0, fun _ => 0, fun _ _ => 0⟩
                  (fun _ _ => 0) 0 t j * 0) ^ 2) / (1 : ℕ) := by
  refine ⟨rfl, ?_⟩
  exact c5_pooled_variance ⟨2, 1, 1, 0, fun _ => 0, fun _ _ => 0⟩
    (fun _ _ => 0) (fun _ _ => 1 / 2) (fun _ _ _ => 0) rfl rfl
    (by intro i t; rfl) (by intro c hc X yv; rfl)

/-- Witness for the amended C7 at a concrete model with variance `0`. -/
theorem c7_nonpositive_variance_degenerate_witness :
    ((0 : ℝ) ≤ 0) ∧
    condLikEntry
        ⟨2, 2, 5, 0, fun _ => 0, fun _ _ => 0, fun _ _ => 0, fun _ _ => 0⟩
        0 0 (fun _ => 0) 0 = 0 :=
  ⟨le_rfl,
    (c7_nonpositive_variance_degenerate
      ⟨2, 2, 5, 0, fun _ => 0, fun _ _ => 0, fun _ _ => 0, fun _ _ => 0⟩
      0 (fun _ => 0) 0 (fun _ => 0) 0 le_rfl le_rfl).1⟩

/-- C8: in the starting-parameter vector, every switching coefficient
block of regime `i` is the pooled OLS block scaled by `i / k` (so regime 0
receives exactly zero), and the variance entries are the
`np.linspace(v / 10, v, k)` samples when the variance switches — running
from `v / 10` at regime 0 to `v` at regime `k - 1` — and the single OLS
residual variance `v` otherwise. -/
theorem c8_start_params (m : SPModel) (lstsq : SPLstsq) (i c j : ℕ)
    (_hik : i < m.k) (hk2 : 2 ≤ m.k) :
    (spExogCoeff m lstsq true i c = spBeta m lstsq c * ((i : ℝ) / m.k)
      ∧ spExogCoeff m lstsq true 0 c = 0)
    ∧ (spArCoeff m lstsq true i j
        = spBeta m lstsq (m.kExog + j) * ((i : ℝ) / m.k)
      ∧ spArCoeff m lstsq true 0 j = 0)
    ∧ (spVariance m lstsq true i
        = npLinspace (spV m lstsq / 10) (spV m lstsq) m.k i
      ∧ spVariance m lstsq true 0 = spV m lstsq / 10
      ∧ spVariance m lstsq true (m.k - 1) = spV m lstsq)
    ∧ spVariance m lstsq false i = spV m lstsq := by
  have hk1 : ¬ m.k ≤ 1 := by omega
  have hcast : ((m.k - 1 : ℕ) : ℝ) ≠ 0 := by
    rw [Nat.cast_ne_zero]
    omega
  refine ⟨⟨rfl, ?_⟩, ⟨rfl, ?_⟩, ⟨rfl, ?_, ?_⟩, rfl⟩
  · unfold spExogCoeff
    simp
  · unfold spArCoeff
    simp
  · unfold spVariance npLinspace
    rw [if_pos rfl, if_neg hk1]
    simp
  · unfold spVariance npLinspace
    rw [if_pos rfl, if_neg hk1]
    have hklt : (1 : ℝ) < (m.k : ℝ) := by
      have h2 : (2 : ℝ) ≤ (m.k : ℝ) := by exact_mod_cast hk2
      linarith
    have hne : ((m.k : ℝ) - 1) ≠ 0 := by
      intro hc
      linarith
    have hc : ((m.k - 1 : ℕ) : ℝ) = (m.k : ℝ) - 1 := by
      rw [Nat.cast_sub (by omega : 1 ≤ m.k)]
      simp
    rw [hc, mul_div_assoc, div_self hne, mul_one]
    ring

/-- Witness for C8 at a concrete model. -/
theorem c8_start_params_witness :
    (1 < 2) ∧ (2 ≤ 2) ∧
    spArCoeff ⟨2, 1, 5, 1, fun n => (n : ℝ), fun _ _ => 1⟩ (fun _ _ _ => 1)
      true 0 0 = 0 :=
  ⟨by norm_num, by norm_num,
    (c8_start_params ⟨2, 1, 5, 1, fun n => (n : ℝ), fun _ _ => 1⟩
      (fun _ _ _ => 1) 1 0 0 (by norm_num) (by norm_num)).2.1.2⟩

/-- C9: construction fails (a `ValueError`) exactly when `nobs ≤ order` or
`switching_ar` is an explicit sequence whose length differs from `order`;
with respect to these two checks it succeeds otherwise. -/
theorem c9_init_checks (nobs order : ℕ) (sw : SwitchingSpec) :
    (initChecks nobs order sw).isOk = true
      ↔ (order < nobs ∧
          ∀ l, sw = SwitchingSpec.seq l → l.length = order) := by
  cases sw with
  | flag b =>
      by_cases hn : nobs ≤ order
      · have hval : initChecks nobs order (SwitchingSpec.flag b)
            = Except.error
              "Must have more observations than the order of the autoregression." := by
          unfold initChecks initSwitchingAr
          dsimp only
          rw [if_pos hn]
        rw [hval]
        constructor
        · intro hc
          simp [Except.isOk, Except.toBool] at hc
        · intro hc
          exact absurd hc.1 (by omega)
      · have hval : initChecks nobs order (SwitchingSpec.flag b)
            = Except.ok (List.replicate order b) := by
          unfold initChecks initSwitchingAr
          dsimp only
          rw [if_neg hn]
        rw [hval]
        constructor
        · intro _
          refine ⟨by omega, ?_⟩
          intro l hl
          simp at hl
        · intro _
          rfl
  | seq l =>
      by_cases hl : l.length = order
      · by_cases hn : nobs ≤ order
        · have hval : initChecks nobs order (SwitchingSpec.seq l)
              = Except.error
                "Must have more observations than the order of the autoregression." := by
            unfold initChecks initSwitchingAr
            dsimp only
            rw [if_pos hl]
            dsimp only
            rw [if_pos hn]
          rw [hval]
          constructor
          · intro hc
            simp [Except.isOk, Except.toBool] at hc
          · intro hc
            exact absurd hc.1 (by omega)
        · have hval : initChecks nobs order (SwitchingSpec.seq l)
              = Except.ok l := by
            unfold initChecks initSwitchingAr
            dsimp only
            rw [if_pos hl]
            dsimp only
            rw [if_neg hn]
          rw [hval]
          constructor
          · intro _
            refine ⟨by omega, ?_⟩
            intro l' hl'
            injection hl' with h
            subst h
            exact hl
          · intro _
            rfl
      · have hval : initChecks nobs order (SwitchingSpec.seq l)
            = Except.error "Invalid iterable passed to switching_ar." := by
          unfold initChecks initSwitchingAr
          dsimp only
          rw [if_neg hl]
        rw [hval]
        constructor
        · intro hc
          simp [Except.isOk, Except.toBool] at hc
        · intro hc
          exact absurd (hc.2 l rfl) hl

/-- Witness for C9 at concrete arguments. -/
theorem c9_init_checks_witness :
    (initChecks 5 1 (SwitchingSpec.flag true)).isOk = true :=
  (c9_init_checks 5 1 (SwitchingSpec.flag true)).mpr
    ⟨by decide, fun l hl => SwitchingSpec.noConfusion hl⟩

/-- C10: the EM iteration takes the `_em_autoregressive` path exactly when
`order > 0`, regardless of the presence of exogenous regressors — the
alternative `_em_exog` AR path is dead (the result does not depend on it)
— and when `order = 0` the autoregressive and variance blocks of the
returned vector are exactly those of the inherited base EM step. -/
theorem c10_em_iteration_paths (m : EMModel) (sv : Bool)
    (params1 : EmParamsVec) (probs : ℕ → ℕ → ℝ) (emExogFn : ℕ → ℕ → ℝ)
    (lstsq : Lstsq m) (altAr altAr' : ℕ → ℕ → ℝ) (altVar altVar' : ℕ → ℝ) :
    (m.order = 0 →
      (emIteration m sv params1 probs emExogFn lstsq altAr altVar).ar
          = params1.ar
        ∧ (emIteration m sv params1 probs emExogFn lstsq altAr altVar).variance
          = params1.variance)
    ∧ emIteration m sv params1 probs emExogFn lstsq altAr altVar
        = emIteration m sv params1 probs emExogFn lstsq altAr' altVar'
    ∧ (0 < m.order →
        (emIteration m sv params1 probs emExogFn lstsq altAr altVar).ar
          = fun i j =>
            if hj : i < m.k ∧ j < m.order then
              emCoeffs m (if 0 < m.kExog then emExogFn else fun _ _ => 0)
                probs lstsq i ⟨j, hj.2⟩
            else params1.ar i j) := by
  refine ⟨?_, ?_, ?_⟩
  · intro h0
    have ho : ¬ 0 < m.order := by omega
    by_cases hke : 0 < m.kExog
    · simp [emIteration, ho, hke]
    · simp [emIteration, ho, hke]
  · by_cases ho : 0 < m.order
    · by_cases hke : 0 < m.kExog
      · simp [emIteration, ho, hke]
      · simp [emIteration, ho, hke]
    · by_cases hke : 0 < m.kExog
      · simp [emIteration, ho, hke]
      · simp [emIteration, ho, hke]
  · intro ho
    by_cases hke : 0 < m.kExog
    · simp [emIteration, ho, hke]
    · simp [emIteration, ho, hke]

/-- Witness for C10 at a concrete model with `order = 0`. -/
theorem c10_em_iteration_paths_witness :
    ((⟨1, 0, 1, 0, fun _ => 0, fun _ _ => 0⟩ : EMModel).order = 0) ∧
    (emIteration ⟨1, 0, 1, 0, fun _ => 0, fun _ _ => 0⟩ false
        ⟨fun _ _ => 0, fun _ _ => 1, fun _ => 2, fun _ => 3⟩
        (fun _ _ => 0) (fun _ _ => 0) (fun _ _ _ => 0) (fun _ _ => 5)
        (fun _ => 6)).ar
      = fun _ _ => (1 : ℝ) :=
  ⟨rfl,
    ((c10_em_iteration_paths ⟨1, 0, 1, 0, fun _ => 0, fun _ _ => 0⟩ false
      ⟨fun _ _ => 0, fun _ _ => 1, fun _ => 2, fun _ => 3⟩
      (fun _ _ => 0) (fun _ _ => 0) (fun _ _ _ => 0) (fun _ _ => 5)
      (fun _ _ => 5) (fun _ => 6) (fun _ => 6)).1 rfl).1⟩

end MarkovAR

end

